import Mathlib

/-!
# Verification of the fused RMS-norm forward/backward CUDA kernels

Shallow embedding of `src/jax/docs/gpu_ops/rms_norm_kernels.cu` over exact
arithmetic.  Numeric values live in an arbitrary linear ordered field `K`
(instantiated at `ℚ` for executable witnesses and at `ℝ` where the claim
mentions the real square root).  Device buffers are modelled as total maps
`ℕ → K` over the flat element index used by the kernels (`i1 * n2 + i2`);
a kernel is embedded as a function from the buffers it may write to their
final contents.  Thread-parallel reductions whose exact-arithmetic result
is a plain sum are embedded by that sum; the online-estimator reduction,
whose merge order is material, is embedded operationally
(`cuWelfordOnlineSum`, `cuChanOnlineSum`, and folds thereof) and its
partition invariance is proved rather than assumed.  The hardware
reciprocal square root intrinsic `rsqrt` is external to the translation
unit and is passed as an explicit function parameter `rsq`.
-/

namespace RMSNorm

/-- Streaming-moment accumulator state `(mu, sigma2, count)` threaded through
`cuWelfordOnlineSum` / `cuChanOnlineSum` (the by-reference arguments
`U &mu, U &sigma2, U &count` of the CUDA code). -/
structure WAcc (K : Type) where
  mu : K
  sigma2 : K
  count : K
deriving DecidableEq

variable {K : Type} [LinearOrderedField K]

/-- Embedding of `cuWelfordOnlineSum` (lines 148-156): one Welford online
update with the new element `curr`. -/
def cuWelfordOnlineSum (curr : K) (a : WAcc K) : WAcc K :=
  let count := a.count + 1
  let delta := curr - a.mu
  let lmean := a.mu + delta / count
  let delta2 := curr - lmean
  ⟨lmean, a.sigma2 + delta * delta2, count⟩

/-- Embedding of `cuChanOnlineSum` (lines 158-175): merge the accumulator
`(muB, sigma2B, countB)` into `a`.  The code overwrites `nA`/`nB` with
`nA/nX`/`nB/nX` before using them, and resets `mu`/`sigma2` to zero when
the merged count is not positive. -/
def cuChanOnlineSum (muB sigma2B countB : K) (a : WAcc K) : WAcc K :=
  let delta := muB - a.mu
  let nA := a.count
  let nB := countB
  let nX := a.count + countB
  if 0 < nX then
    ⟨nA / nX * a.mu + nB / nX * muB,
     a.sigma2 + sigma2B + delta * delta * (nA / nX) * (nB / nX) * nX,
     nX⟩
  else
    ⟨0, 0, nX⟩

/-- Embedding of `cuRMSOnlineSum` (lines 177-179): accumulate one squared
element into the running sum of squares. -/
def cuRMSOnlineSum (curr : K) (sigma2 : K) : K :=
  sigma2 + curr * curr

/-- Embedding of `cuChanRMSOnlineSum` (lines 181-184): the RMS-only merge is
plain addition of partial sums of squares. -/
def cuChanRMSOnlineSum (sigma2B : K) (sigma2 : K) : K :=
  sigma2 + sigma2B

/-- The merge combinator as invoked at every `cuChanOnlineSum` call site
(lines 232, 260, 351, 379): the fields of a second accumulator `b` are
merged into the local accumulator `a`. -/
def chanMerge (a b : WAcc K) : WAcc K :=
  cuChanOnlineSum b.mu b.sigma2 b.count a

/-- One worker's Welford pass over its assigned elements, starting from the
zero-initialised accumulator (`count = mu = sigma2 = 0`, lines 196-198). -/
def welfordList (xs : List K) : WAcc K :=
  xs.foldl (fun a x => cuWelfordOnlineSum x a) ⟨0, 0, 0⟩

/-- One worker's RMS pass over its assigned elements, starting from
`sigma2 = 0`. -/
def rmsList (xs : List K) : K :=
  xs.foldl (fun s x => cuRMSOnlineSum x s) 0

/-- Per-worker Welford passes over a static partition of a row, followed by
the pairwise `cuChanOnlineSum` merge of all worker accumulators (the
butterfly / shared-memory tree of `cuWelfordMuSigma2`, which is a sequence
of such merges). -/
def welfordParts (parts : List (List K)) : WAcc K :=
  (parts.map welfordList).foldl chanMerge ⟨0, 0, 0⟩

/-- Per-worker RMS passes over a static partition of a row, followed by the
additive `cuChanRMSOnlineSum` merge of all worker partial sums. -/
def rmsParts (parts : List (List K)) : K :=
  (parts.map rmsList).foldl (fun s x => cuChanRMSOnlineSum x s) 0

/-- Embedding of `cuWelfordMuSigma2` (lines 186-287) on a whole row: the
returned pair is `(mu, sigma2 / n2)` (the code divides the merged `sigma2`
by `n2` on exit, lines 278/284; in RMS-only mode `mu` keeps its
initialisation value `0`).  The caller guard `i1 < n1` is enforced at the
call site (the row loop of `cuApplyLayerNorm_`). -/
def cuWelfordMuSigma2 (xs : List K) (n2 : ℕ) (rmsOnly : Bool) : K × K :=
  if rmsOnly then
    (0, rmsList xs / (n2 : K))
  else
    ((welfordList xs).mu, (welfordList xs).sigma2 / (n2 : K))

/-! ## Buffer machinery

Each kernel writes, for every processed row (segment), one contiguous slice
of an output buffer; distinct rows write disjoint slices, so the loop over
rows is embedded as iterated slice writes. -/

/-- Write the `n` values `v 0, …, v (n-1)` to positions
`base, …, base + n - 1` of buffer `buf` (the per-row inner store loop of a
kernel). -/
def writeSlice (base : ℕ) (v : ℕ → K) : ℕ → (ℕ → K) → ℕ → K
  | 0, buf => buf
  | n + 1, buf => Function.update (writeSlice base v n buf) (base + n) (v n)

/-- Iterate `writeSlice` over rows `0, …, m - 1`, row `b` writing values
`v b 0, …, v b (n2-1)` at base offset `b * n2` (the grid-strided row loop
of a kernel: every row index below the row count is processed by exactly
one block). -/
def sliceLoop (n2 : ℕ) (v : ℕ → ℕ → K) : ℕ → (ℕ → K) → ℕ → K
  | 0, buf => buf
  | b + 1, buf => writeSlice (b * n2) (v b) n2 (sliceLoop n2 v b buf)

/-- The row `i1` of the input tensor: elements `vals[i1*n2], …,
`vals[i1*n2 + n2 - 1]` (the `lvals` pointer of the kernels). -/
def rowVals (vals : ℕ → K) (n2 i1 : ℕ) : List K :=
  (List.range n2).map fun i => vals (i1 * n2 + i)

/-! ## Forward pass -/

/-- The three buffers written by `cuApplyLayerNorm_`. -/
structure FwdBufs (K : Type) where
  output : ℕ → K
  mean : ℕ → K
  invvar : ℕ → K

/-- The value stored to `ovals[i]` by `cuApplyLayerNorm_` (lines 461-480),
over exact arithmetic (the `static_cast`s are value-preserving there; the
cast-instrumented variant is `fwdValCast` below).  The branch structure
mirrors `gamma != NULL && (beta != NULL || rms_only)`: with `gamma`
present but `beta` absent in full mode, the unscaled branch is taken. -/
def fwdVal (gamma beta : Option (ℕ → K)) (rmsOnly : Bool) (mu cinvvar curr : K)
    (i : ℕ) : K :=
  match gamma, beta with
  | some g, some b =>
      if rmsOnly then g i * (cinvvar * curr) else g i * (cinvvar * (curr - mu)) + b i
  | some g, none =>
      if rmsOnly then g i * (cinvvar * curr) else cinvvar * (curr - mu)
  | none, _ =>
      if rmsOnly then cinvvar * curr else cinvvar * (curr - mu)

/-- One iteration of the row loop of `cuApplyLayerNorm_` (lines 450-488):
run the moment estimator on row `i1`, form `c_invvar = rsqrt(sigma2 +
epsilon)`, store the normalized row, and have the designated worker store
`mean[i1]` (full mode only) and `invvar[i1]`. -/
def applyNormRow (rsq : K → K) (vals : ℕ → K) (n2 : ℕ) (eps : K)
    (gamma beta : Option (ℕ → K)) (rmsOnly : Bool) (b : FwdBufs K) (i1 : ℕ) :
    FwdBufs K :=
  let ms := cuWelfordMuSigma2 (rowVals vals n2 i1) n2 rmsOnly
  let cinvvar := rsq (ms.2 + eps)
  ⟨writeSlice (i1 * n2) (fun i => fwdVal gamma beta rmsOnly ms.1 cinvvar (vals (i1 * n2 + i)) i)
      n2 b.output,
   if rmsOnly then b.mean else Function.update b.mean i1 ms.1,
   Function.update b.invvar i1 cinvvar⟩

/-- The row loop of `cuApplyLayerNorm_`: rows `0, …, m - 1` processed once
each (rows are distributed round-robin over `blockIdx.y` with stride
`gridDim.y`; each row below `n1` is handled exactly once and rows are
independent). -/
def applyNormLoop (rsq : K → K) (vals : ℕ → K) (n2 : ℕ) (eps : K)
    (gamma beta : Option (ℕ → K)) (rmsOnly : Bool) : ℕ → FwdBufs K → FwdBufs K
  | 0, b => b
  | m + 1, b => applyNormRow rsq vals n2 eps gamma beta rmsOnly
      (applyNormLoop rsq vals n2 eps gamma beta rmsOnly m b) m

/-- Embedding of `cuApplyLayerNorm_` (lines 439-489). -/
def cuApplyLayerNorm (rsq : K → K) (vals : ℕ → K) (n1 n2 : ℕ) (eps : K)
    (gamma beta : Option (ℕ → K)) (rmsOnly : Bool) (b : FwdBufs K) : FwdBufs K :=
  applyNormLoop rsq vals n2 eps gamma beta rmsOnly n1 b

/-- Embedding of the `cuApplyRMSNorm` kernel (lines 491-498): it invokes
`cuApplyLayerNorm_` with `mean = NULL`, `beta = NULL` and `rms_only =
true`.  The never-dereferenced null `mean` argument is modelled by the
arbitrary junk buffer `fun _ => 0` (claim C7 proves the contents are
irrelevant). -/
def cuApplyRMSNormK (rsq : K → K) (output invvar vals : ℕ → K) (n1 n2 : ℕ)
    (eps : K) (gamma : Option (ℕ → K)) : FwdBufs K :=
  cuApplyLayerNorm rsq vals n1 n2 eps gamma none true ⟨output, fun _ => 0, invvar⟩

/-- Embedding of `HostApplyRMSNorm` (lines 500-517): a single launch of
`cuApplyRMSNorm` (the launch geometry does not change the exact-arithmetic
result). -/
def HostApplyRMSNorm (rsq : K → K) (output invvar input : ℕ → K) (n1 n2 : ℕ)
    (eps : K) (gamma : Option (ℕ → K)) : FwdBufs K :=
  cuApplyRMSNormK rsq output invvar input n1 n2 eps gamma

/-! ## Backward pass: input gradient -/

/-- Sequential accumulation of a per-row reduction (`sum_loss1` /
`sum_loss2` in `cuComputeGradInput`, accumulated over `l < n2`; the
unrolled stride-4 loop plus remainder loop visits every element exactly
once, and the butterfly/tree reduction adds the per-worker partial sums). -/
def rowFold (n : ℕ) (f : ℕ → K) : K :=
  (List.range n).foldl (fun s l => s + f l) 0

/-- Summand of `sum_loss1` (full mode only, lines 757/769/783/794):
`c_loss * gamma[l]`, or `c_loss` when `gamma == NULL`. -/
def sl1term (gamma : Option (ℕ → K)) (dout : ℕ → K) (n2 i1 l : ℕ) : K :=
  match gamma with
  | some g => dout (i1 * n2 + l) * g l
  | none => dout (i1 * n2 + l)

/-- Summand of `sum_loss2` (lines 758-761/770-773/784-786/795-797). -/
def sl2term (gamma : Option (ℕ → K)) (dout input : ℕ → K) (cmean cinvvar : K)
    (rmsOnly : Bool) (n2 i1 l : ℕ) : K :=
  let ch := input (i1 * n2 + l)
  let cl := dout (i1 * n2 + l)
  match gamma with
  | some g =>
      if rmsOnly then cl * g l * ch * cinvvar else cl * g l * (ch - cmean) * cinvvar
  | none =>
      if rmsOnly then cl * ch * cinvvar else cl * (ch - cmean) * cinvvar

/-- The value stored to `k_grad_input[l]` by `cuComputeGradInput`
(lines 847-877), over exact arithmetic: `f_grad_input` is built in the
accumulation type and multiplied by `term1 = (1/fH) * c_invvar`. -/
def gradInputVal (gamma : Option (ℕ → K)) (dout input mean invvar : ℕ → K)
    (rmsOnly : Bool) (n2 i1 l : ℕ) : K :=
  let cinvvar := invvar i1
  let sl1 := rowFold n2 (sl1term gamma dout n2 i1)
  let sl2 := rowFold n2 (sl2term gamma dout input (mean i1) cinvvar rmsOnly n2 i1)
  let fH : K := (n2 : K)
  let term1 := 1 / fH * cinvvar
  let ch := input (i1 * n2 + l)
  let cl := dout (i1 * n2 + l)
  let f0 : K :=
    match gamma with
    | some g => fH * cl * g l
    | none => fH * cl
  let f1 := if rmsOnly then f0 - ch * cinvvar * sl2
            else f0 - sl1 - (ch - mean i1) * cinvvar * sl2
  f1 * term1

/-- Embedding of `cuComputeGradInput` (lines 732-882): for each row, the
two reduction scalars are recomputed and the gradient row is stored. -/
def cuComputeGradInput (dout input : ℕ → K) (n1 n2 : ℕ) (mean invvar : ℕ → K)
    (gamma : Option (ℕ → K)) (gradInput : ℕ → K) (rmsOnly : Bool) : ℕ → K :=
  sliceLoop n2 (fun i1 l => gradInputVal gamma dout input mean invvar rmsOnly n2 i1 l)
    n1 gradInput

/-! ## Backward pass: parameter gradient (two stages) -/

/-- `segs_per_block` of `cuComputePartGradGammaBeta` (lines 601-603) for the
launch geometry of `HostRMSNormGradient`: `blockDim.y = 4` (so
`blockDim.y^2 = 16`) and `gridDim.y = part_size`. -/
def segsPerBlock (n1 P : ℕ) : ℕ :=
  ((n1 + 16 - 1) / 16 + P - 1) / P

/-- The row span handled by one `blockIdx.y`: rows
`[b * chunk, min ((b+1) * chunk) n1)` with `chunk = segs_per_block * 16`
(lines 604-607). -/
def segChunk (n1 P : ℕ) : ℕ :=
  segsPerBlock n1 P * 16

/-- The value stored to `part_grad_gamma[b * n2 + i2]` by
`cuComputePartGradGammaBeta` (lines 619-672): the sum over the block's row
span of `curr_dout * curr_input * curr_invvar` (RMS mode) or
`curr_dout * (curr_input - curr_mean) * curr_invvar` (full mode); the
strided shared-memory tile and its tree reduction compute exactly this
column sum. -/
def partGammaVal (dout input mean invvar : ℕ → K) (rmsOnly : Bool)
    (n1 n2 P b i2 : ℕ) : K :=
  ∑ i1 ∈ Finset.Ico (b * segChunk n1 P) (min ((b + 1) * segChunk n1 P) n1),
    if rmsOnly then dout (i1 * n2 + i2) * input (i1 * n2 + i2) * invvar i1
    else dout (i1 * n2 + i2) * (input (i1 * n2 + i2) - mean i1) * invvar i1

/-- The value stored to `part_grad_beta[b * n2 + i2]` (full mode only):
the sum of `curr_dout` over the block's row span. -/
def partBetaVal (dout : ℕ → K) (n1 n2 P b i2 : ℕ) : K :=
  ∑ i1 ∈ Finset.Ico (b * segChunk n1 P) (min ((b + 1) * segChunk n1 P) n1),
    dout (i1 * n2 + i2)

/-- Embedding of `cuComputePartGradGammaBeta` (lines 596-673): block
`(b, blockIdx.x)` writes `part_grad_gamma[b*n2 + i2]` for its columns
`i2 < n2`, and `part_grad_beta` likewise in full mode only (the
`!rms_only` guard at line 668). -/
def cuComputePartGradGammaBeta (dout input : ℕ → K) (n1 n2 : ℕ)
    (mean invvar : ℕ → K) (pgGamma pgBeta : ℕ → K) (P : ℕ) (rmsOnly : Bool) :
    (ℕ → K) × (ℕ → K) :=
  (sliceLoop n2 (fun b i2 => partGammaVal dout input mean invvar rmsOnly n1 n2 P b i2) P pgGamma,
   if rmsOnly then pgBeta
   else sliceLoop n2 (fun b i2 => partBetaVal dout n1 n2 P b i2) P pgBeta)

/-- The value stored to `grad_gamma[i2]` by `cuComputeGradGammaBeta`
(lines 684-728) with the launch geometry `blockDim.y = 8` of
`HostRMSNormGradient`: warp `ty` sequentially sums the
`num_warp_reductions = part_size / 8` partial rows starting at row
`ty * num_warp_reductions`, and the inter-warp tree adds the eight warp
sums.  Partial rows with index at or above `8 * (part_size / 8)` are never
read. -/
def gradGammaVal (pgGamma : ℕ → K) (P n2 i2 : ℕ) : K :=
  ∑ ty ∈ Finset.range 8, ∑ k ∈ Finset.range (P / 8),
    pgGamma ((ty * (P / 8) + k) * n2 + i2)

/-- The value stored to `grad_beta[i2]` (full mode only), same shape. -/
def gradBetaVal (pgBeta : ℕ → K) (P n2 i2 : ℕ) : K :=
  ∑ ty ∈ Finset.range 8, ∑ k ∈ Finset.range (P / 8),
    pgBeta ((ty * (P / 8) + k) * n2 + i2)

/-- Embedding of `cuComputeGradGammaBeta` (lines 675-730): every column
`i2 < n2` of `grad_gamma` is written once (`grad_beta` in full mode
only, line 725). -/
def cuComputeGradGammaBeta (pgGamma pgBeta : ℕ → K) (P n1 n2 : ℕ)
    (gradGamma gradBeta : ℕ → K) (rmsOnly : Bool) : (ℕ → K) × (ℕ → K) :=
  (writeSlice 0 (fun i2 => gradGammaVal pgGamma P n2 i2) n2 gradGamma,
   if rmsOnly then gradBeta
   else writeSlice 0 (fun i2 => gradBetaVal pgBeta P n2 i2) n2 gradBeta)

/-- Embedding of `HostRMSNormGradient` (lines 884-928).  When `gamma` is
present, the two parameter-gradient stages run with `rms_only = true`, the
`mean` slots aliased to `invvar`, and the `part_grad_beta` / `grad_beta`
slots aliased to `part_grad_gamma` / `grad_gamma` (the `/* unused */`
arguments); then `cuComputeGradInput` runs with `rms_only = true` and
`mean` aliased to `invvar`.  Returns
`(grad_input, grad_gamma, part_grad_gamma)`. -/
def HostRMSNormGradient (dout invvar input : ℕ → K) (n1 n2 : ℕ)
    (gamma : Option (ℕ → K)) (gradInput gradGamma : ℕ → K) (P : ℕ)
    (pgGamma : ℕ → K) : (ℕ → K) × (ℕ → K) × (ℕ → K) :=
  match gamma with
  | some g =>
      let part := cuComputePartGradGammaBeta dout input n1 n2 invvar invvar
        pgGamma pgGamma P true
      let gg := cuComputeGradGammaBeta part.1 part.1 P n1 n2 gradGamma gradGamma true
      let gi := cuComputeGradInput dout input n1 n2 invvar invvar (some g) gradInput true
      (gi, gg.1, part.1)
  | none =>
      (cuComputeGradInput dout input n1 n2 invvar invvar none gradInput true,
       gradGamma, pgGamma)

/-! ## Cast-instrumented element computations (claim C8)

Precision loss is modelled by an abstract rounding map for each narrowing
point: `castV` rounds to the storage/weight type `V`, `castT` to the input
type `T`.  Arithmetic performed *in* a narrow type is the rounding of the
exact product. -/

/-- Round a rational down to an integer: a concrete lossy rounding map
(IEEE round-toward-negative-infinity onto the integers), used to witness
that cast placement is observable. -/
def ratFloor (q : ℚ) : ℚ := (⌊q⌋ : ℚ)

/-- Cast-instrumented value of `ovals[i]` in the RMS branch with `gamma`
present, from line 468: `ovals[i] = gamma[i] * static_cast<V>(c_invvar *
curr)` — the normalized value is cast to `V` first, the multiplication by
`gamma[i]` is a `V * V` product (rounded to `V`), and the store performs
no further conversion. -/
def fwdValCast (castV : K → K) (g cinvvar curr : K) : K :=
  castV (g * castV (cinvvar * curr))

/-- Modelled from the spec: the value claim C8 asserts for the forward RMS
output with `gamma` — all multiplications in the accumulation type and a
single cast to `V` at the final store. -/
def fwdValSpecCast (castV : K → K) (g cinvvar curr : K) : K :=
  castV (g * (curr * cinvvar))

/-- Cast-instrumented value of `k_grad_input[l]` in the RMS branch with
`gamma` present, from lines 851-862: `f_grad_input` is accumulated in `U`
and `static_cast<T>` is applied exactly once at the store. -/
def gradInputValCast (castT : K → K) (n2 : ℕ) (cl g ch cinvvar sl2 : K) : K :=
  castT (((n2 : K) * cl * g - ch * cinvvar * sl2) * (1 / (n2 : K) * cinvvar))

/-- Modelled from the spec: the value claim C8 asserts for `grad_input` —
`castT` of the fully accumulated closed-form expression. -/
def gradInputValSpecCast (castT : K → K) (n2 : ℕ) (cl g ch cinvvar sl2 : K) : K :=
  castT (((n2 : K) * cl * g - ch * cinvvar * sl2) * (cinvvar / (n2 : K)))

/-! ## Dispatch layer and public entry points (claims C9, C10) -/

/-- Modelled from the spec: the element-type enum `gpu_ops::ElementType`
is declared in the excluded header `kernels.h`.  The four members named by
the dispatch switch (lines 25-146) are `F64`, `F32`, `F16`, `BF16`; the
spec's error taxonomy ("unsupported dtype combination — silently produces
no output (a no-op dispatch default)") says enum values outside this
supported set can reach the dispatch, which `other` stands for. -/
inductive ElementType
  | F64
  | F32
  | F16
  | BF16
  | other (tag : ℕ)
deriving DecidableEq

/-- An element type hits a labelled case of
`DISPATCH_DOUBLE_FLOAT_HALF_AND_BFLOAT_INOUT_TYPES` (any other value falls
through the `default: break;`). -/
def isSupported : ElementType → Bool
  | .F64 => true
  | .F32 => true
  | .F16 => true
  | .BF16 => true
  | .other _ => false

/-- The decoded `RMSNormDescriptor` (fields read at lines 945-946 and
960-966). -/
structure RMSNormDescriptor where
  n1 : ℕ
  n2 : ℕ
  eps : ℚ
  xType : ElementType
  wType : ElementType
  partGradSize : ℕ

/-- The four buffers of a forward call: `buffers[0] = input`,
`buffers[1] = gamma`, `buffers[2] = output`, `buffers[3] = invvar`. -/
structure FwdState where
  input : ℕ → ℚ
  gamma : ℕ → ℚ
  output : ℕ → ℚ
  invvar : ℕ → ℚ

/-- The seven buffers of a backward call: `buffers[0] = dout`,
`buffers[1] = invvar`, `buffers[2] = input`, `buffers[3] = gamma`,
`buffers[4] = grad_input`, `buffers[5] = grad_gamma`,
`buffers[6] = part_grad_gamma`. -/
structure BwdState where
  dout : ℕ → ℚ
  invvar : ℕ → ℚ
  input : ℕ → ℚ
  gamma : ℕ → ℚ
  gradInput : ℕ → ℚ
  gradGamma : ℕ → ℚ
  partGradGamma : ℕ → ℚ

/-- Embedding of `gpu_ops::rms_forward_affine_mixed_dtypes`
(lines 934-947): when both dtypes take a labelled dispatch case,
`HostApplyRMSNorm` runs on the buffers; the dispatch `default` branch does
nothing and the call returns with every buffer untouched. -/
def rms_forward_affine_mixed_dtypes (rsq : ℚ → ℚ) (d : RMSNormDescriptor)
    (s : FwdState) : FwdState :=
  if isSupported d.xType && isSupported d.wType then
    let r := HostApplyRMSNorm rsq s.output s.invvar s.input d.n1 d.n2 d.eps (some s.gamma)
    ⟨s.input, s.gamma, r.output, r.invvar⟩
  else s

/-- Embedding of `gpu_ops::rms_backward_affine` (lines 949-968), with the
same dispatch behaviour. -/
def rms_backward_affine (d : RMSNormDescriptor) (s : BwdState) : BwdState :=
  if isSupported d.xType && isSupported d.wType then
    let r := HostRMSNormGradient s.dout s.invvar s.input d.n1 d.n2 (some s.gamma)
      s.gradInput s.gradGamma d.partGradSize s.partGradGamma
    ⟨s.dout, s.invvar, s.input, s.gamma, r.1, r.2.1, r.2.2⟩
  else s

/-! ## Exactness predicates for the streaming estimator (claims C4-C6) -/

/-- Sum of squares of a multiset. -/
def sumSq (s : Multiset K) : K := (s.map fun x => x * x).sum

/-- The accumulator `a` is the exact-arithmetic summary of the multiset
`s`: its count is the cardinality, its mean the exact mean, and its
`sigma2` the exact sum of squared deviations (in the closed form
`sumSq s - sum s ^ 2 / card s`); the empty summary is exactly `(0,0,0)`. -/
def ExactAcc (s : Multiset K) (a : WAcc K) : Prop :=
  a.count = (Multiset.card s : K) ∧
  (s = 0 → a.mu = 0 ∧ a.sigma2 = 0) ∧
  (s ≠ 0 → a.mu = s.sum / (Multiset.card s : K) ∧
    a.sigma2 = sumSq s - s.sum * s.sum / (Multiset.card s : K))

/-- An accumulator triple is well formed when its count is non-negative
and a zero count forces the zero triple — true of every accumulator the
kernels actually build (fresh accumulators are zero-initialised, and
updates preserve it). -/
def WellFormed (a : WAcc K) : Prop :=
  0 ≤ a.count ∧ (a.count = 0 → a.mu = 0 ∧ a.sigma2 = 0)

/-! ## Lemmas: buffer machinery -/

theorem writeSlice_apply_in (base : ℕ) (v : ℕ → K) (n i : ℕ) (buf : ℕ → K)
    (h : i < n) : writeSlice base v n buf (base + i) = v i := by
  induction n with
  | zero => omega
  | succ m ih =>
    by_cases hi : i = m
    · subst hi
      simp [writeSlice]
    · have hlt : i < m := by omega
      unfold writeSlice
      rw [Function.update_noteq (by omega : base + i ≠ base + m)]
      exact ih hlt

theorem writeSlice_apply_out (base : ℕ) (v : ℕ → K) (n : ℕ) (buf : ℕ → K)
    (j : ℕ) (h : ∀ i, i < n → j ≠ base + i) : writeSlice base v n buf j = buf j := by
  induction n with
  | zero => rfl
  | succ m ih =>
    unfold writeSlice
    rw [Function.update_noteq (h m (by omega))]
    exact ih fun i hi => h i (by omega)

theorem writeSlice_congr (base : ℕ) (v w : ℕ → K) (n : ℕ) (buf : ℕ → K)
    (h : ∀ i, i < n → v i = w i) :
    writeSlice base v n buf = writeSlice base w n buf := by
  induction n with
  | zero => rfl
  | succ m ih =>
    unfold writeSlice
    rw [ih fun i hi => h i (by omega), h m (by omega)]

theorem sliceLoop_apply_in (n2 : ℕ) (v : ℕ → ℕ → K) (m b i : ℕ) (buf : ℕ → K)
    (hb : b < m) (hi : i < n2) : sliceLoop n2 v m buf (b * n2 + i) = v b i := by
  induction m with
  | zero => omega
  | succ p ih =>
    unfold sliceLoop
    by_cases hbp : b = p
    · subst hbp
      exact writeSlice_apply_in _ _ _ _ _ hi
    · have hblt : b < p := by omega
      rw [writeSlice_apply_out]
      · exact ih hblt
      · intro j hj
        have h1 : (b + 1) * n2 ≤ p * n2 := Nat.mul_le_mul_right n2 (by omega)
        have h2 : (b + 1) * n2 = b * n2 + n2 := by ring
        omega

theorem sliceLoop_congr (n2 : ℕ) (v w : ℕ → ℕ → K) (m : ℕ) (buf : ℕ → K)
    (h : ∀ b, b < m → ∀ i, i < n2 → v b i = w b i) :
    sliceLoop n2 v m buf = sliceLoop n2 w m buf := by
  induction m with
  | zero => rfl
  | succ p ih =>
    unfold sliceLoop
    rw [ih fun b hb i hi => h b (by omega) i hi,
      writeSlice_congr _ _ _ _ _ fun i hi => h p (by omega) i hi]

/-! ## Lemmas: list folds as sums -/

theorem rmsList_eq (xs : List K) : rmsList xs = (xs.map fun x => x * x).sum := by
  have h : ∀ (ys : List K) (a : K),
      ys.foldl (fun s x => cuRMSOnlineSum x s) a = a + (ys.map fun x => x * x).sum := by
    intro ys
    induction ys with
    | nil => intro a; simp
    | cons y ys ih =>
      intro a
      rw [List.foldl_cons, ih, List.map_cons, List.sum_cons]
      simp only [cuRMSOnlineSum]
      ring
  simpa using h xs 0

theorem rowFold_eq_sum (n : ℕ) (f : ℕ → K) :
    rowFold n f = ∑ l ∈ Finset.range n, f l := by
  induction n with
  | zero => simp [rowFold]
  | succ m ih =>
    unfold rowFold at ih ⊢
    rw [List.range_succ, List.foldl_append, ih, Finset.sum_range_succ]
    rfl

theorem rangeMapSum (n : ℕ) (g : ℕ → K) :
    ((List.range n).map g).sum = ∑ j ∈ Finset.range n, g j := by
  induction n with
  | zero => simp
  | succ m ih => rw [List.range_succ]; simp [ih, Finset.sum_range_succ]

theorem sum_sq_dev (l : List K) (m : K) :
    (l.map fun x => (x - m) ^ 2).sum =
      (l.map fun x => x * x).sum - 2 * m * l.sum + (l.length : K) * m ^ 2 := by
  induction l with
  | nil => simp
  | cons y ys ih =>
    simp only [List.map_cons, List.sum_cons, List.length_cons, ih]
    push_cast
    ring

/-! ## Lemmas: exactness of the streaming estimator -/

theorem exactAcc_zero : ExactAcc (0 : Multiset K) (⟨0, 0, 0⟩ : WAcc K) := by
  refine ⟨by simp, fun _ => ⟨rfl, rfl⟩, fun h => absurd rfl h⟩

theorem exact_welford_step (s : Multiset K) (a : WAcc K) (x : K)
    (h : ExactAcc s a) : ExactAcc (x ::ₘ s) (cuWelfordOnlineSum x a) := by
  obtain ⟨hc, hz, hnz⟩ := h
  by_cases hs : s = 0
  · subst hs
    obtain ⟨hmu, hsig⟩ := hz rfl
    have hc0 : a.count = 0 := by simpa using hc
    refine ⟨?_, by simp, fun _ => ⟨?_, ?_⟩⟩
    · simp [cuWelfordOnlineSum, hc0]
    · simp [cuWelfordOnlineSum, hc0, hmu]
    · simp [cuWelfordOnlineSum, hc0, hmu, hsig, sumSq]
  · have hcardpos : 0 < Multiset.card s := Multiset.card_pos.2 hs
    have hcard : (0 : K) < (Multiset.card s : K) := by exact_mod_cast hcardpos
    obtain ⟨hmu, hsig⟩ := hnz hs
    have hn : ((Multiset.card s : ℕ) : K) ≠ 0 := ne_of_gt hcard
    have hn1 : ((Multiset.card s : ℕ) : K) + 1 ≠ 0 := by positivity
    refine ⟨?_, by simp, fun _ => ⟨?_, ?_⟩⟩
    · simp only [cuWelfordOnlineSum, Multiset.card_cons, hc]
      push_cast
      ring
    · simp only [cuWelfordOnlineSum, Multiset.card_cons, Multiset.sum_cons, hc, hmu]
      push_cast
      field_simp
      ring
    · simp only [cuWelfordOnlineSum, Multiset.card_cons, Multiset.sum_cons, hc, hmu, hsig,
        sumSq, Multiset.map_cons]
      push_cast
      field_simp
      ring

theorem exact_welford_fold (xs : List K) (s : Multiset K) (a : WAcc K)
    (h : ExactAcc s a) :
    ExactAcc (s + (xs : Multiset K)) (xs.foldl (fun a x => cuWelfordOnlineSum x a) a) := by
  induction xs generalizing s a with
  | nil => simpa using h
  | cons x xs ih =>
    have h2 := ih (x ::ₘ s) _ (exact_welford_step s a x h)
    rw [List.foldl_cons]
    have hms : (x ::ₘ s) + (xs : Multiset K) = s + ((x :: xs : List K) : Multiset K) := by
      rw [Multiset.cons_add, ← Multiset.cons_coe, Multiset.add_cons]
    rwa [hms] at h2

theorem exact_welfordList (xs : List K) : ExactAcc (↑xs) (welfordList xs) := by
  simpa [welfordList] using exact_welford_fold xs 0 ⟨0, 0, 0⟩ exactAcc_zero

theorem exact_chanMerge (s t : Multiset K) (a b : WAcc K)
    (ha : ExactAcc s a) (hb : ExactAcc t b) :
    ExactAcc (s + t) (chanMerge a b) := by
  obtain ⟨hac, haz, hanz⟩ := ha
  obtain ⟨hbc, hbz, hbnz⟩ := hb
  by_cases hs : s = 0 <;> by_cases ht : t = 0
  · subst hs; subst ht
    obtain ⟨ha1, ha2⟩ := haz rfl
    obtain ⟨hb1, hb2⟩ := hbz rfl
    have hac0 : a.count = 0 := by simpa using hac
    have hbc0 : b.count = 0 := by simpa using hbc
    refine ⟨?_, fun _ => ⟨?_, ?_⟩, fun h => absurd (by simp) h⟩ <;>
      simp [chanMerge, cuChanOnlineSum, hac0, hbc0]
  · subst hs
    obtain ⟨ha1, ha2⟩ := haz rfl
    have hac0 : a.count = 0 := by simpa using hac
    have htpos : (0 : K) < (Multiset.card t : K) := by
      exact_mod_cast Multiset.card_pos.2 ht
    have hne : (Multiset.card t : K) ≠ 0 := ne_of_gt htpos
    have hpos : 0 < a.count + b.count := by rw [hac0, hbc]; simpa using htpos
    obtain ⟨hb1, hb2⟩ := hbnz ht
    refine ⟨?_, fun h0 => absurd h0 (by simp [ht]), fun _ => ⟨?_, ?_⟩⟩
    · simp only [chanMerge, cuChanOnlineSum, if_pos hpos]
      simp [hac0, hbc]
    · simp only [chanMerge, cuChanOnlineSum, if_pos hpos]
      simp [hac0, hbc, ha1, hb1, div_self hne]
    · simp only [chanMerge, cuChanOnlineSum, if_pos hpos]
      simp [hac0, hbc, ha2, hb2, sumSq]
  · subst ht
    obtain ⟨hb1, hb2⟩ := hbz rfl
    have hbc0 : b.count = 0 := by simpa using hbc
    have hspos : (0 : K) < (Multiset.card s : K) := by
      exact_mod_cast Multiset.card_pos.2 hs
    have hne : (Multiset.card s : K) ≠ 0 := ne_of_gt hspos
    have hpos : 0 < a.count + b.count := by rw [hac, hbc0]; simpa using hspos
    obtain ⟨ha1, ha2⟩ := hanz hs
    refine ⟨?_, fun h0 => absurd h0 (by simp [hs]), fun _ => ⟨?_, ?_⟩⟩
    · simp only [chanMerge, cuChanOnlineSum, if_pos hpos]
      simp [hac, hbc0]
    · simp only [chanMerge, cuChanOnlineSum, if_pos hpos]
      simp [hac, hbc0, ha1, hb1, div_self hne]
    · simp only [chanMerge, cuChanOnlineSum, if_pos hpos]
      simp [hac, hbc0, ha2, hb2, sumSq]
  · have hspos : (0 : K) < (Multiset.card s : K) := by
      exact_mod_cast Multiset.card_pos.2 hs
    have htpos : (0 : K) < (Multiset.card t : K) := by
      exact_mod_cast Multiset.card_pos.2 ht
    have hcount : a.count + b.count = (Multiset.card s : K) + (Multiset.card t : K) := by
      rw [hac, hbc]
    have hpos : 0 < a.count + b.count := by rw [hcount]; positivity
    obtain ⟨ha1, ha2⟩ := hanz hs
    obtain ⟨hb1, hb2⟩ := hbnz ht
    have hsne : (Multiset.card s : K) ≠ 0 := ne_of_gt hspos
    have htne : (Multiset.card t : K) ≠ 0 := ne_of_gt htpos
    have hstne : (Multiset.card s : K) + (Multiset.card t : K) ≠ 0 := by positivity
    refine ⟨?_, fun h0 => absurd h0 (by simp [hs]), fun _ => ⟨?_, ?_⟩⟩
    · simp only [chanMerge, cuChanOnlineSum, if_pos hpos]
      simp only [hcount, Multiset.card_add]
      push_cast
      ring
    · simp only [chanMerge, cuChanOnlineSum, if_pos hpos]
      simp only [hcount, hac, hbc, ha1, hb1, Multiset.card_add, Multiset.sum_add]
      push_cast
      field_simp
      ring
    · simp only [chanMerge, cuChanOnlineSum, if_pos hpos]
      simp only [hcount, hac, hbc, ha1, hb1, ha2, hb2, Multiset.card_add,
        Multiset.sum_add, sumSq, Multiset.map_add]
      push_cast
      field_simp
      ring

theorem exact_welfordParts_fold (ps : List (List K)) (s : Multiset K) (a : WAcc K)
    (h : ExactAcc s a) :
    ExactAcc (s + (ps.join : Multiset K)) ((ps.map welfordList).foldl chanMerge a) := by
  induction ps generalizing s a with
  | nil => simpa using h
  | cons p ps ih =>
    have h1 : ExactAcc (s + (p : Multiset K)) (chanMerge a (welfordList p)) :=
      exact_chanMerge s (↑p) a (welfordList p) h (exact_welfordList p)
    have h2 := ih (s + (p : Multiset K)) _ h1
    rw [List.map_cons, List.foldl_cons]
    have hms : (s + (p : Multiset K)) + (ps.join : Multiset K) =
        s + (((p :: ps).join : List K) : Multiset K) := by
      have hj : ((p :: ps).join : List K) = p ++ ps.join := rfl
      rw [hj, ← Multiset.coe_add, ← add_assoc]
    rwa [hms] at h2

theorem exact_welfordParts (ps : List (List K)) :
    ExactAcc (ps.join : Multiset K) (welfordParts ps) := by
  simpa [welfordParts] using exact_welfordParts_fold ps 0 ⟨0, 0, 0⟩ exactAcc_zero

theorem rmsParts_eq (ps : List (List K)) :
    rmsParts ps = ((ps.join).map fun x => x * x).sum := by
  have h : ∀ (qs : List (List K)) (a : K),
      (qs.map rmsList).foldl (fun s x => cuChanRMSOnlineSum x s) a =
        a + ((qs.join).map fun x => x * x).sum := by
    intro qs
    induction qs with
    | nil => intro a; simp
    | cons q qs ih =>
      intro a
      rw [List.map_cons, List.foldl_cons, ih]
      simp only [cuChanRMSOnlineSum, List.join_cons, List.map_append, List.sum_append,
        rmsList_eq]
      ring
  simpa [rmsParts] using h ps 0

/-! ## Lemmas: forward pass -/

theorem applyNormLoop_mean_rms (rsq : K → K) (vals : ℕ → K) (n2 : ℕ) (eps : K)
    (gamma beta : Option (ℕ → K)) (m : ℕ) (b : FwdBufs K) :
    (applyNormLoop rsq vals n2 eps gamma beta true m b).mean = b.mean := by
  induction m with
  | zero => rfl
  | succ p ih => simp [applyNormLoop, applyNormRow, ih]

theorem applyNormLoop_invvar_at (rsq : K → K) (vals : ℕ → K) (n2 : ℕ) (eps : K)
    (gamma beta : Option (ℕ → K)) (rmsOnly : Bool) (m i1 : ℕ) (b : FwdBufs K)
    (h : i1 < m) :
    (applyNormLoop rsq vals n2 eps gamma beta rmsOnly m b).invvar i1 =
      rsq ((cuWelfordMuSigma2 (rowVals vals n2 i1) n2 rmsOnly).2 + eps) := by
  induction m with
  | zero => omega
  | succ p ih =>
    unfold applyNormLoop applyNormRow
    by_cases hip : i1 = p
    · subst hip
      simp
    · have hlt : i1 < p := by omega
      simp only [Function.update_noteq hip]
      exact ih hlt

theorem applyNormLoop_output_at (rsq : K → K) (vals : ℕ → K) (n2 : ℕ) (eps : K)
    (gamma beta : Option (ℕ → K)) (rmsOnly : Bool) (m i1 i : ℕ) (b : FwdBufs K)
    (h1 : i1 < m) (h2 : i < n2) :
    (applyNormLoop rsq vals n2 eps gamma beta rmsOnly m b).output (i1 * n2 + i) =
      fwdVal gamma beta rmsOnly (cuWelfordMuSigma2 (rowVals vals n2 i1) n2 rmsOnly).1
        (rsq ((cuWelfordMuSigma2 (rowVals vals n2 i1) n2 rmsOnly).2 + eps))
        (vals (i1 * n2 + i)) i := by
  induction m with
  | zero => omega
  | succ p ih =>
    simp only [applyNormLoop, applyNormRow]
    by_cases hip : i1 = p
    · subst hip
      exact writeSlice_apply_in _ _ _ _ _ h2
    · have hlt : i1 < p := by omega
      rw [writeSlice_apply_out]
      · exact ih hlt
      · intro j hj
        have ha : (i1 + 1) * n2 ≤ p * n2 := Nat.mul_le_mul_right n2 (by omega)
        have hb : (i1 + 1) * n2 = i1 * n2 + n2 := by ring
        omega

theorem applyNormLoop_mean_indep (rsq : K → K) (vals : ℕ → K) (n2 : ℕ) (eps : K)
    (gamma beta : Option (ℕ → K)) (m : ℕ) (o iv m1 m2 : ℕ → K) :
    (applyNormLoop rsq vals n2 eps gamma beta true m ⟨o, m1, iv⟩).output =
      (applyNormLoop rsq vals n2 eps gamma beta true m ⟨o, m2, iv⟩).output ∧
    (applyNormLoop rsq vals n2 eps gamma beta true m ⟨o, m1, iv⟩).invvar =
      (applyNormLoop rsq vals n2 eps gamma beta true m ⟨o, m2, iv⟩).invvar := by
  induction m with
  | zero => exact ⟨rfl, rfl⟩
  | succ p ih =>
    unfold applyNormLoop applyNormRow
    refine ⟨?_, ?_⟩ <;> simp [ih.1, ih.2]

/-- The RMS-mode mean square of row `i1` is the row's sum of squares over
`n2`. -/
theorem rmsRow_eq_sum (vals : ℕ → K) (n2 i1 : ℕ) :
    rmsList (rowVals vals n2 i1) =
      ∑ j ∈ Finset.range n2, vals (i1 * n2 + j) ^ 2 := by
  rw [rmsList_eq, rowVals, List.map_map, rangeMapSum]
  exact Finset.sum_congr rfl fun j _ => by simp [Function.comp]; ring

/-! ## Lemmas: backward pass -/

theorem cuComputeGradInput_at (dout input mean invvar gi : ℕ → K)
    (gamma : Option (ℕ → K)) (rmsOnly : Bool) (n1 n2 i1 l : ℕ)
    (h1 : i1 < n1) (h2 : l < n2) :
    cuComputeGradInput dout input n1 n2 mean invvar gamma gi rmsOnly (i1 * n2 + l) =
      gradInputVal gamma dout input mean invvar rmsOnly n2 i1 l :=
  sliceLoop_apply_in n2 _ n1 i1 l gi h1 h2

theorem partGradGamma_at (dout input mean invvar pgg pgb : ℕ → K)
    (rmsOnly : Bool) (n1 n2 P b i2 : ℕ) (h1 : b < P) (h2 : i2 < n2) :
    (cuComputePartGradGammaBeta dout input n1 n2 mean invvar pgg pgb P rmsOnly).1
        (b * n2 + i2) =
      partGammaVal dout input mean invvar rmsOnly n1 n2 P b i2 :=
  sliceLoop_apply_in n2 _ P b i2 pgg h1 h2

theorem gradGamma_at (pgg pgb gg gb : ℕ → K) (rmsOnly : Bool) (P n1 n2 i2 : ℕ)
    (h : i2 < n2) :
    (cuComputeGradGammaBeta pgg pgb P n1 n2 gg gb rmsOnly).1 i2 =
      gradGammaVal pgg P n2 i2 := by
  have := writeSlice_apply_in 0 (fun i2 => gradGammaVal pgg P n2 i2) n2 i2 gg h
  simpa using this

/-! ## Lemmas: chunked reduction arithmetic -/

theorem le_mul_ceil (a b : ℕ) (hb : 0 < b) : a ≤ ((a + b - 1) / b) * b := by
  rcases Nat.eq_zero_or_pos a with h | h
  · simp [h]
  · have h1 : a + b - 1 = (a - 1) + b := by omega
    rw [h1, Nat.add_div_right _ hb]
    have h2 : a - 1 < ((a - 1) / b + 1) * b := by
      rw [← Nat.div_lt_iff_lt_mul hb]
      omega
    omega

theorem n1_le_chunk (n1 P : ℕ) (hP : 0 < P) : n1 ≤ P * segChunk n1 P := by
  have h1 : n1 ≤ ((n1 + 16 - 1) / 16) * 16 := le_mul_ceil n1 16 (by norm_num)
  have h2 : (n1 + 16 - 1) / 16 ≤ segsPerBlock n1 P * P := le_mul_ceil _ P hP
  calc n1 ≤ ((n1 + 16 - 1) / 16) * 16 := h1
    _ ≤ segsPerBlock n1 P * P * 16 := Nat.mul_le_mul_right 16 h2
    _ = P * segChunk n1 P := by unfold segChunk; ring

theorem sum_chunks (f : ℕ → K) (n1 c P : ℕ) (hc : n1 ≤ P * c) :
    ∑ b ∈ Finset.range P, ∑ i1 ∈ Finset.Ico (b * c) (min ((b + 1) * c) n1), f i1 =
      ∑ i1 ∈ Finset.range n1, f i1 := by
  have key : ∀ Q : ℕ,
      ∑ b ∈ Finset.range Q, ∑ i1 ∈ Finset.Ico (b * c) (min ((b + 1) * c) n1), f i1 =
        ∑ i1 ∈ Finset.Ico 0 (min (Q * c) n1), f i1 := by
    intro Q
    induction Q with
    | zero => simp
    | succ q ih =>
      rw [Finset.sum_range_succ, ih]
      by_cases hq : q * c ≤ n1
      · rw [Nat.min_eq_left hq]
        refine Finset.sum_Ico_consecutive f (Nat.zero_le _) ?_
        exact le_min (Nat.mul_le_mul_right c (by omega)) hq
      · have hlt : n1 < q * c := by omega
        have hq1 : n1 ≤ (q + 1) * c :=
          le_trans (Nat.le_of_lt hlt) (Nat.mul_le_mul_right c (by omega))
        rw [Nat.min_eq_right (Nat.le_of_lt hlt), Nat.min_eq_right hq1,
          Finset.Ico_eq_empty (by omega : ¬q * c < n1)]
        simp
  have h := key P
  rw [Nat.min_eq_right hc, ← Finset.range_eq_Ico] at h
  exact h

theorem sum_range_mul (m n : ℕ) (f : ℕ → K) :
    ∑ b ∈ Finset.range (m * n), f b =
      ∑ ty ∈ Finset.range m, ∑ k ∈ Finset.range n, f (ty * n + k) := by
  induction m with
  | zero => simp
  | succ p ih =>
    have h1 : (p + 1) * n = p * n + n := by ring
    rw [h1, Finset.range_eq_Ico,
      ← Finset.sum_Ico_consecutive f (Nat.zero_le (p * n)) (by omega : p * n ≤ p * n + n),
      ← Finset.range_eq_Ico, ih, Finset.sum_range_succ]
    congr 1
    rw [Finset.sum_Ico_eq_sum_range]
    simp

theorem gradGammaVal_eq (pgg : ℕ → K) (P n2 i2 : ℕ) (h8 : 8 ∣ P) :
    gradGammaVal pgg P n2 i2 = ∑ b ∈ Finset.range P, pgg (b * n2 + i2) := by
  unfold gradGammaVal
  rw [← sum_range_mul 8 (P / 8) fun b => pgg (b * n2 + i2), Nat.mul_div_cancel' h8]

/-! ## Lemmas: merge algebra -/

theorem chanMerge_pos (a b : WAcc K) (h : 0 < a.count + b.count) :
    chanMerge a b =
      ⟨a.count / (a.count + b.count) * a.mu + b.count / (a.count + b.count) * b.mu,
       a.sigma2 + b.sigma2 + (b.mu - a.mu) * (b.mu - a.mu) *
         (a.count / (a.count + b.count)) * (b.count / (a.count + b.count)) *
         (a.count + b.count),
       a.count + b.count⟩ := by
  simp only [chanMerge, cuChanOnlineSum, if_pos h]

theorem wf_zero_eq (a : WAcc K) (h : WellFormed a) (h0 : a.count = 0) :
    a = ⟨0, 0, 0⟩ := by
  obtain ⟨am, as2, ac⟩ := a
  obtain ⟨h1, h2⟩ := h.2 h0
  simp only at h0 h1 h2
  rw [h0, h1, h2]

theorem chanMerge_zero_right (a : WAcc K) (h : WellFormed a) :
    chanMerge a ⟨0, 0, 0⟩ = a := by
  obtain ⟨am, as2, ac⟩ := a
  by_cases hc : ac = 0
  · obtain ⟨h1, h2⟩ := h.2 hc
    simp only at h1 h2
    subst hc; subst h1; subst h2
    simp [chanMerge, cuChanOnlineSum]
  · have hpos : 0 < ac := lt_of_le_of_ne h.1 (Ne.symm hc)
    have h0 : (0 : K) < ac + 0 := by simpa using hpos
    rw [chanMerge_pos _ _ h0]
    simp [WAcc.mk.injEq, div_self (ne_of_gt hpos)]

theorem chanMerge_zero_left (b : WAcc K) (h : WellFormed b) :
    chanMerge ⟨0, 0, 0⟩ b = b := by
  obtain ⟨bm, bs2, bc⟩ := b
  by_cases hc : bc = 0
  · obtain ⟨h1, h2⟩ := h.2 hc
    simp only at h1 h2
    subst hc; subst h1; subst h2
    simp [chanMerge, cuChanOnlineSum]
  · have hpos : 0 < bc := lt_of_le_of_ne h.1 (Ne.symm hc)
    have h0 : (0 : K) < (⟨0, 0, 0⟩ : WAcc K).count + bc := by simpa using hpos
    rw [chanMerge_pos _ _ h0]
    simp [WAcc.mk.injEq, div_self (ne_of_gt hpos)]

theorem chanMerge_wf (a b : WAcc K) (ha : WellFormed a) (hb : WellFormed b) :
    WellFormed (chanMerge a b) := by
  by_cases h : 0 < a.count + b.count
  · rw [chanMerge_pos a b h]
    refine ⟨le_of_lt h, fun h0 => ?_⟩
    have h1 : a.count + b.count = 0 := h0
    exact absurd h (by rw [h1]; exact lt_irrefl 0)
  · have hc : a.count + b.count = 0 := le_antisymm (not_lt.1 h) (add_nonneg ha.1 hb.1)
    have ha0 : a.count = 0 := by
      have := ha.1; have := hb.1; linarith
    have hb0 : b.count = 0 := by
      have := ha.1; have := hb.1; linarith
    rw [wf_zero_eq a ha ha0, wf_zero_eq b hb hb0]
    simp only [chanMerge, cuChanOnlineSum]
    norm_num
    exact ⟨le_refl 0, fun _ => ⟨rfl, rfl⟩⟩

/-! ## Claim theorems -/

/-- Claim C4: for every row of `n2 ≥ 1` values and every static partition
of the row's elements among workers, the streaming estimator (per-worker
Welford/RMS online updates followed by the pairwise merge combiner)
produces, over exact arithmetic, `mean = sum(x)/n2` and
`ms = sum((x-mean)^2)/n2` in full mode, or `ms = sum(x^2)/n2` in RMS-only
mode (the estimator's `ms` is the merged `sigma2` divided by `n2`). -/
theorem claim_C4_estimator (parts : List (List ℚ)) (row : List ℚ) (n2 : ℕ)
    (hperm : parts.join.Perm row) (hn : n2 = row.length) (hpos : 0 < n2) :
    (welfordParts parts).mu = row.sum / (n2 : ℚ) ∧
    (welfordParts parts).sigma2 / (n2 : ℚ) =
      (row.map fun x => (x - row.sum / (n2 : ℚ)) ^ 2).sum / (n2 : ℚ) ∧
    rmsParts parts / (n2 : ℚ) = (row.map fun x => x ^ 2).sum / (n2 : ℚ) := by
  subst hn
  have hms : ((parts.join : List ℚ) : Multiset ℚ) = (row : Multiset ℚ) :=
    Multiset.coe_eq_coe.2 hperm
  have hex := exact_welfordParts parts
  rw [hms] at hex
  obtain ⟨hc, hz, hnz⟩ := hex
  have hrow : row ≠ [] := by
    intro h0; rw [h0] at hpos; simp at hpos
  have hrow0 : (row : Multiset ℚ) ≠ 0 := by
    rw [Ne, Multiset.coe_eq_zero]; exact hrow
  obtain ⟨hmu, hsig⟩ := hnz hrow0
  have hlen : ((row.length : ℕ) : ℚ) ≠ 0 := by
    exact_mod_cast Nat.pos_iff_ne_zero.1 hpos
  refine ⟨?_, ?_, ?_⟩
  · rw [hmu]
    simp
  · rw [hsig, sum_sq_dev row (row.sum / (row.length : ℚ))]
    simp only [sumSq, Multiset.map_coe, Multiset.sum_coe, Multiset.coe_card]
    field_simp
    ring
  · rw [rmsParts_eq, (hperm.map fun x => x * x).sum_eq]
    have hf : (row.map fun x => x * x).sum = (row.map fun x => x ^ 2).sum := by
      have : (fun x : ℚ => x * x) = fun x : ℚ => x ^ 2 := by
        funext x; ring
      rw [this]
    rw [hf]

theorem claim_C4_estimator_witness :
    (welfordParts [[1], [2, 3]] : WAcc ℚ).mu = ([1, 2, 3] : List ℚ).sum / ((3 : ℕ) : ℚ) ∧
    (welfordParts [[1], [2, 3]] : WAcc ℚ).sigma2 / ((3 : ℕ) : ℚ) =
      (([1, 2, 3] : List ℚ).map fun x =>
        (x - ([1, 2, 3] : List ℚ).sum / ((3 : ℕ) : ℚ)) ^ 2).sum / ((3 : ℕ) : ℚ) ∧
    rmsParts [[1], [2, 3]] / ((3 : ℕ) : ℚ) =
      (([1, 2, 3] : List ℚ).map fun x => x ^ 2).sum / ((3 : ℕ) : ℚ) :=
  claim_C4_estimator [[1], [2, 3]] [1, 2, 3] 3 (by decide) (by rfl) (by norm_num)

/-- Claim C5: `cuChanOnlineSum` merging `(muB, sigma2B, countB)` into
`(mu, sigma2, count)` yields the new count `count + countB`; when the new
count is positive, the weighted mean and Chan variance-correction formulas
of the claim; when the new count is zero, `mu` and `sigma2` are reset to
exactly zero. -/
theorem claim_C5_chan_merge (muB s2B cB : ℚ) (a : WAcc ℚ) :
    (cuChanOnlineSum muB s2B cB a).count = a.count + cB ∧
    (0 < a.count + cB →
      (cuChanOnlineSum muB s2B cB a).mu =
        a.count / (a.count + cB) * a.mu + cB / (a.count + cB) * muB ∧
      (cuChanOnlineSum muB s2B cB a).sigma2 =
        a.sigma2 + s2B + (muB - a.mu) ^ 2 * (a.count / (a.count + cB)) *
          (cB / (a.count + cB)) * (a.count + cB)) ∧
    (a.count + cB = 0 →
      (cuChanOnlineSum muB s2B cB a).mu = 0 ∧
      (cuChanOnlineSum muB s2B cB a).sigma2 = 0) := by
  refine ⟨?_, fun h => ?_, fun h => ?_⟩
  · simp only [cuChanOnlineSum]
    split <;> rfl
  · constructor
    · simp [cuChanOnlineSum, if_pos h]
    · simp only [cuChanOnlineSum, if_pos h]
      ring
  · have hne : ¬(0 : ℚ) < a.count + cB := by rw [h]; exact lt_irrefl 0
    simp [cuChanOnlineSum, hne]

theorem claim_C5_chan_merge_witness :
    (0 : ℚ) < 1 + 1 ∧ (cuChanOnlineSum 2 3 1 (⟨0, 0, 1⟩ : WAcc ℚ)).mu = 1 := by
  refine ⟨by norm_num, ?_⟩
  have h := (claim_C5_chan_merge 2 3 1 ⟨0, 0, 1⟩).2.1 (by norm_num)
  rw [h.1]
  norm_num

/-- Claim C6 counterexample: with the non-negative-count triples
`A = (0, 1, 0)`, `B = (0, 0, 0)`, `C = (0, 0, 1)` the two association
orders disagree — the zero-count reset of `cuChanOnlineSum` discards
`A.sigma2 = 1` on the left but not on the right — so the merge is not
associative on arbitrary triples with non-negative counts. -/
theorem claim_C6_counterexample :
    0 ≤ (⟨0, 1, 0⟩ : WAcc ℚ).count ∧ 0 ≤ (⟨0, 0, 0⟩ : WAcc ℚ).count ∧
    0 ≤ (⟨0, 0, 1⟩ : WAcc ℚ).count ∧
    chanMerge (chanMerge ⟨0, 1, 0⟩ ⟨0, 0, 0⟩) (⟨0, 0, 1⟩ : WAcc ℚ) ≠
      chanMerge ⟨0, 1, 0⟩ (chanMerge ⟨0, 0, 0⟩ ⟨0, 0, 1⟩) := by
  refine ⟨le_refl 0, le_refl 0, by norm_num, fun heq => ?_⟩
  have h2 := congrArg WAcc.sigma2 heq
  norm_num [chanMerge, cuChanOnlineSum, apply_ite WAcc.sigma2] at h2

/-- Claim C6 (amended): over exact arithmetic the `cuChanOnlineSum` merge
is commutative for accumulators with non-negative counts, and associative
for well-formed accumulators (non-negative count, and zero count only for
the all-zero triple — true of every accumulator the reduction actually
builds); the additive RMS-only merge `cuChanRMSOnlineSum` is commutative
and associative unconditionally. -/
theorem claim_C6_merge_algebra :
    (∀ a b : WAcc ℚ, 0 ≤ a.count → 0 ≤ b.count → chanMerge a b = chanMerge b a) ∧
    (∀ a b c : WAcc ℚ, WellFormed a → WellFormed b → WellFormed c →
      chanMerge (chanMerge a b) c = chanMerge a (chanMerge b c)) ∧
    (∀ x y : ℚ, cuChanRMSOnlineSum x y = cuChanRMSOnlineSum y x) ∧
    (∀ x y z : ℚ, cuChanRMSOnlineSum z (cuChanRMSOnlineSum y x) =
      cuChanRMSOnlineSum (cuChanRMSOnlineSum z y) x) := by
  refine ⟨?_, ?_, ?_, ?_⟩
  · intro a b _ _
    obtain ⟨am, as2, ac⟩ := a
    obtain ⟨bm, bs2, bc⟩ := b
    by_cases h : (0 : ℚ) < ac + bc
    · have h2 : (0 : ℚ) < bc + ac := by linarith
      rw [chanMerge_pos _ _ h, chanMerge_pos _ _ h2]
      congr 1 <;> ring
    · have h2 : ¬(0 : ℚ) < bc + ac := fun hx => h (by linarith)
      simp only [chanMerge, cuChanOnlineSum, if_neg h, if_neg h2]
      congr 1
      ring
  · intro a b c ha hb hc
    by_cases hac : a.count = 0
    · rw [wf_zero_eq a ha hac, chanMerge_zero_left b hb,
        chanMerge_zero_left _ (chanMerge_wf b c hb hc)]
    · by_cases hbc : b.count = 0
      · rw [wf_zero_eq b hb hbc, chanMerge_zero_right a ha, chanMerge_zero_left c hc]
      · by_cases hcc : c.count = 0
        · rw [wf_zero_eq c hc hcc, chanMerge_zero_right _ (chanMerge_wf a b ha hb),
            chanMerge_zero_right b hb]
        · have hap : 0 < a.count := lt_of_le_of_ne ha.1 (Ne.symm hac)
          have hbp : 0 < b.count := lt_of_le_of_ne hb.1 (Ne.symm hbc)
          have hcp : 0 < c.count := lt_of_le_of_ne hc.1 (Ne.symm hcc)
          obtain ⟨am, as2, ac⟩ := a
          obtain ⟨bm, bs2, bc⟩ := b
          obtain ⟨cm, cs2, cc⟩ := c
          simp only at hap hbp hcp
          have hab : (0 : ℚ) < ac + bc := by linarith
          have hbc2 : (0 : ℚ) < bc + cc := by linarith
          rw [chanMerge_pos ⟨am, as2, ac⟩ ⟨bm, bs2, bc⟩ hab,
            chanMerge_pos ⟨bm, bs2, bc⟩ ⟨cm, cs2, cc⟩ hbc2]
          have habc : (0 : ℚ) < ac + bc + cc := by linarith
          have habc2 : (0 : ℚ) < ac + (bc + cc) := by linarith
          rw [chanMerge_pos _ _ habc, chanMerge_pos _ _ habc2]
          have h1 : ac + bc ≠ 0 := ne_of_gt hab
          have h2 : bc + cc ≠ 0 := ne_of_gt hbc2
          have h3 : ac + bc + cc ≠ 0 := ne_of_gt habc
          have h4 : ac + (bc + cc) ≠ 0 := ne_of_gt habc2
          congr 1 <;> (field_simp; ring)
  · intro x y
    simp only [cuChanRMSOnlineSum]
    ring
  · intro x y z
    simp only [cuChanRMSOnlineSum]
    ring

theorem claim_C6_merge_algebra_witness :
    chanMerge (chanMerge ⟨5, 7, 2⟩ ⟨1, 1, 1⟩) (⟨0, 2, 3⟩ : WAcc ℚ) =
      chanMerge ⟨5, 7, 2⟩ (chanMerge ⟨1, 1, 1⟩ ⟨0, 2, 3⟩) :=
  claim_C6_merge_algebra.2.1 ⟨5, 7, 2⟩ ⟨1, 1, 1⟩ ⟨0, 2, 3⟩
    ⟨by norm_num, fun h => absurd h (by norm_num)⟩
    ⟨by norm_num, fun h => absurd h (by norm_num)⟩
    ⟨by norm_num, fun h => absurd h (by norm_num)⟩

/-- Claim C1: for every descriptor with `n1 ≥ 1`, `n2 ≥ 1`, non-NULL
`gamma`, and every row `i1 < n1` and column `i < n2`, the RMS forward pass
writes `output[i1,i] = gamma[i] * (x[i1,i] * inv_std[i1])` and saves
`invvar[i1] = 1/sqrt(mean(x[i1,.]^2) + epsilon)`, the mean square being
the row's sum of squares over `n2` — exactly, over the exact-arithmetic
embedding with `rsqrt r = (Real.sqrt r)⁻¹`. -/
theorem claim_C1_forward_rms (vals gamma out0 inv0 : ℕ → ℝ) (n1 n2 : ℕ)
    (eps : ℝ) (i1 i : ℕ) (h1 : i1 < n1) (h2 : i < n2) :
    (HostApplyRMSNorm (fun r => (Real.sqrt r)⁻¹) out0 inv0 vals n1 n2 eps
        (some gamma)).output (i1 * n2 + i) =
      gamma i * (vals (i1 * n2 + i) *
        (HostApplyRMSNorm (fun r => (Real.sqrt r)⁻¹) out0 inv0 vals n1 n2 eps
          (some gamma)).invvar i1) ∧
    (HostApplyRMSNorm (fun r => (Real.sqrt r)⁻¹) out0 inv0 vals n1 n2 eps
        (some gamma)).invvar i1 =
      (Real.sqrt ((∑ j ∈ Finset.range n2, vals (i1 * n2 + j) ^ 2) / (n2 : ℝ) +
        eps))⁻¹ := by
  have hinv := applyNormLoop_invvar_at (fun r => (Real.sqrt r)⁻¹) vals n2 eps
    (some gamma) none true n1 i1 ⟨out0, fun _ => 0, inv0⟩ h1
  have hout := applyNormLoop_output_at (fun r => (Real.sqrt r)⁻¹) vals n2 eps
    (some gamma) none true n1 i1 i ⟨out0, fun _ => 0, inv0⟩ h1 h2
  have hms : (cuWelfordMuSigma2 (rowVals vals n2 i1) n2 true).2 =
      (∑ j ∈ Finset.range n2, vals (i1 * n2 + j) ^ 2) / (n2 : ℝ) := by
    simp only [cuWelfordMuSigma2, if_true]
    rw [rmsRow_eq_sum]
  unfold HostApplyRMSNorm cuApplyRMSNormK cuApplyLayerNorm
  rw [hout, hinv, hms]
  constructor
  · simp only [fwdVal, if_true]
    ring
  · rfl

theorem claim_C1_forward_rms_witness :
    (HostApplyRMSNorm (fun r => (Real.sqrt r)⁻¹) (fun _ => 0) (fun _ => 0)
        (fun _ => 0) 1 1 1 (some fun _ => 1)).invvar 0 = 1 ∧
    (HostApplyRMSNorm (fun r => (Real.sqrt r)⁻¹) (fun _ => 0) (fun _ => 0)
        (fun _ => 0) 1 1 1 (some fun _ => 1)).output 0 = 0 := by
  have h := claim_C1_forward_rms (fun _ => 0) (fun _ => 1) (fun _ => 0) (fun _ => 0)
    1 1 1 0 0 (by norm_num) (by norm_num)
  have hinv : (HostApplyRMSNorm (fun r => (Real.sqrt r)⁻¹) (fun _ => 0) (fun _ => 0)
      (fun _ => 0) 1 1 1 (some fun _ => 1)).invvar 0 = 1 := by
    have h2 := h.2
    norm_num at h2
    simpa [Real.sqrt_one] using h2
  refine ⟨hinv, ?_⟩
  have h1 := h.1
  norm_num at h1
  exact h1

/-- Claim C7: mode isolation — in RMS-only mode the forward pass never
reads and never writes the mean buffer: for any two contents of the mean
buffer the forward pass produces identical output and invvar buffers, and
leaves the mean buffer unchanged. -/
theorem claim_C7_mode_isolation (rsq : ℚ → ℚ) (vals : ℕ → ℚ) (n1 n2 : ℕ)
    (eps : ℚ) (gamma beta : Option (ℕ → ℚ)) (o iv m1 m2 : ℕ → ℚ) :
    (cuApplyLayerNorm rsq vals n1 n2 eps gamma beta true ⟨o, m1, iv⟩).output =
      (cuApplyLayerNorm rsq vals n1 n2 eps gamma beta true ⟨o, m2, iv⟩).output ∧
    (cuApplyLayerNorm rsq vals n1 n2 eps gamma beta true ⟨o, m1, iv⟩).invvar =
      (cuApplyLayerNorm rsq vals n1 n2 eps gamma beta true ⟨o, m2, iv⟩).invvar ∧
    (cuApplyLayerNorm rsq vals n1 n2 eps gamma beta true ⟨o, m1, iv⟩).mean = m1 :=
  ⟨(applyNormLoop_mean_indep rsq vals n2 eps gamma beta n1 o iv m1 m2).1,
   (applyNormLoop_mean_indep rsq vals n2 eps gamma beta n1 o iv m1 m2).2,
   applyNormLoop_mean_rms rsq vals n2 eps gamma beta n1 ⟨o, m1, iv⟩⟩

/-- Claim C2: per row and element, `cuComputeGradInput` writes, in RMS
mode with `gamma` present,
`grad_input = ((n2*dout*gamma) - (x*inv_std)*sum_loss2) * (inv_std/n2)`
with `sum_loss2 = Σ dout*gamma*x*inv_std` over the row; with `gamma` NULL
the gamma factor is dropped from both; in full mode `sum_loss1 = Σ
dout*gamma` is additionally subtracted and `(x - mean)*inv_std` replaces
`x*inv_std`. -/
theorem claim_C2_grad_input (dout input mean invvar gamma gi : ℕ → ℚ)
    (n1 n2 i1 l : ℕ) (h1 : i1 < n1) (h2 : l < n2) :
    cuComputeGradInput dout input n1 n2 mean invvar (some gamma) gi true
        (i1 * n2 + l) =
      ((n2 : ℚ) * dout (i1 * n2 + l) * gamma l -
        input (i1 * n2 + l) * invvar i1 *
          (∑ j ∈ Finset.range n2,
            dout (i1 * n2 + j) * gamma j * input (i1 * n2 + j) * invvar i1)) *
        (invvar i1 / (n2 : ℚ)) ∧
    cuComputeGradInput dout input n1 n2 mean invvar none gi true
        (i1 * n2 + l) =
      ((n2 : ℚ) * dout (i1 * n2 + l) -
        input (i1 * n2 + l) * invvar i1 *
          (∑ j ∈ Finset.range n2,
            dout (i1 * n2 + j) * input (i1 * n2 + j) * invvar i1)) *
        (invvar i1 / (n2 : ℚ)) ∧
    cuComputeGradInput dout input n1 n2 mean invvar (some gamma) gi false
        (i1 * n2 + l) =
      ((n2 : ℚ) * dout (i1 * n2 + l) * gamma l -
        (∑ j ∈ Finset.range n2, dout (i1 * n2 + j) * gamma j) -
        (input (i1 * n2 + l) - mean i1) * invvar i1 *
          (∑ j ∈ Finset.range n2,
            dout (i1 * n2 + j) * gamma j * (input (i1 * n2 + j) - mean i1) *
              invvar i1)) *
        (invvar i1 / (n2 : ℚ)) := by
  refine ⟨?_, ?_, ?_⟩ <;>
  · rw [cuComputeGradInput_at _ _ _ _ _ _ _ _ _ _ _ h1 h2]
    simp only [gradInputVal, sl1term, sl2term, rowFold_eq_sum, if_true,
      Bool.false_eq_true, if_false]
    ring

theorem claim_C2_grad_input_witness :
    cuComputeGradInput (fun _ => (1 : ℚ)) (fun _ => 1) 1 1 (fun _ => 1)
      (fun _ => 1) (some fun _ => 1) (fun _ => 0) true 0 = 0 := by
  have h := (claim_C2_grad_input (fun _ => 1) (fun _ => 1) (fun _ => 1)
    (fun _ => 1) (fun _ => 1) (fun _ => 0) 1 1 0 0 (by norm_num) (by norm_num)).1
  norm_num at h
  exact h

/-- Claim C3 counterexample: with `part_size = 1` (and `n1 = n2 = 1`,
all-ones buffers) stage 2 computes `num_warp_reductions = 1 / 8 = 0` and
reads no partial row at all, so the two-stage reduction writes
`grad_gamma[0] = 0` while the single-pass reduction over all rows is `1`:
the two-stage split is not semantics-preserving for every positive
`part_size`. -/
theorem claim_C3_counterexample :
    (cuComputeGradGammaBeta
        (cuComputePartGradGammaBeta (fun _ => (1 : ℚ)) (fun _ => 1) 1 1
          (fun _ => 1) (fun _ => 1) (fun _ => 0) (fun _ => 0) 1 true).1
        (cuComputePartGradGammaBeta (fun _ => (1 : ℚ)) (fun _ => 1) 1 1
          (fun _ => 1) (fun _ => 1) (fun _ => 0) (fun _ => 0) 1 true).1
        1 1 1 (fun _ => 0) (fun _ => 0) true).1 0 ≠
      ∑ i1 ∈ Finset.range 1,
        (fun _ : ℕ => (1 : ℚ)) (i1 * 1 + 0) * (fun _ : ℕ => (1 : ℚ)) (i1 * 1 + 0) *
          (fun _ : ℕ => (1 : ℚ)) i1 := by
  have hL : (cuComputeGradGammaBeta
      (cuComputePartGradGammaBeta (fun _ => (1 : ℚ)) (fun _ => 1) 1 1
        (fun _ => 1) (fun _ => 1) (fun _ => 0) (fun _ => 0) 1 true).1
      (cuComputePartGradGammaBeta (fun _ => (1 : ℚ)) (fun _ => 1) 1 1
        (fun _ => 1) (fun _ => 1) (fun _ => 0) (fun _ => 0) 1 true).1
      1 1 1 (fun _ => 0) (fun _ => 0) true).1 0 = 0 := by
    rw [gradGamma_at _ _ _ _ true 1 1 1 0 (by norm_num)]
    simp [gradGammaVal]
  rw [hL]
  norm_num

/-- Claim C3 (amended): for every `part_size` that is a positive multiple
of the stage-2 warp count 8 (in particular the value 16 used upstream),
the two-stage parameter-gradient reduction — `cuComputePartGradGammaBeta`
over the code's row chunking followed by `cuComputeGradGammaBeta` — writes
`grad_gamma[i2]` equal to the single-pass full reduction
`Σ_{i1 < n1} dout[i1,i2] * x[i1,i2] * inv_std[i1]` (RMS mode, aliased
buffers exactly as `HostRMSNormGradient` passes them).  For `part_size`
not divisible by 8, stage 2 drops the trailing `part_size mod 8` partial
rows (see the counterexample). -/
theorem claim_C3_two_stage_amended (dout input invvar pgg gg : ℕ → ℚ)
    (n1 n2 P i2 : ℕ) (hP : 0 < P) (h8 : 8 ∣ P) (hi : i2 < n2) :
    (cuComputeGradGammaBeta
        (cuComputePartGradGammaBeta dout input n1 n2 invvar invvar pgg pgg P true).1
        (cuComputePartGradGammaBeta dout input n1 n2 invvar invvar pgg pgg P true).1
        P n1 n2 gg gg true).1 i2 =
      ∑ i1 ∈ Finset.range n1,
        dout (i1 * n2 + i2) * input (i1 * n2 + i2) * invvar i1 := by
  rw [gradGamma_at _ _ _ _ true P n1 n2 i2 hi, gradGammaVal_eq _ _ _ _ h8]
  rw [Finset.sum_congr rfl fun b hb =>
    partGradGamma_at dout input invvar invvar pgg pgg true n1 n2 P b i2
      (Finset.mem_range.1 hb) hi]
  have hv : ∀ b, partGammaVal dout input invvar invvar true n1 n2 P b i2 =
      ∑ i1 ∈ Finset.Ico (b * segChunk n1 P) (min ((b + 1) * segChunk n1 P) n1),
        dout (i1 * n2 + i2) * input (i1 * n2 + i2) * invvar i1 := by
    intro b
    unfold partGammaVal
    exact Finset.sum_congr rfl fun _ _ => by simp
  rw [Finset.sum_congr rfl fun b _ => hv b]
  exact sum_chunks _ n1 (segChunk n1 P) P (n1_le_chunk n1 P hP)

theorem claim_C3_two_stage_amended_witness :
    (cuComputeGradGammaBeta
        (cuComputePartGradGammaBeta (fun _ => (1 : ℚ)) (fun _ => 1) 1 1
          (fun _ => 1) (fun _ => 1) (fun _ => 0) (fun _ => 0) 8 true).1
        (cuComputePartGradGammaBeta (fun _ => (1 : ℚ)) (fun _ => 1) 1 1
          (fun _ => 1) (fun _ => 1) (fun _ => 0) (fun _ => 0) 8 true).1
        8 1 1 (fun _ => 0) (fun _ => 0) true).1 0 =
      ∑ i1 ∈ Finset.range 1,
        (fun _ : ℕ => (1 : ℚ)) (i1 * 1 + 0) * (fun _ : ℕ => (1 : ℚ)) (i1 * 1 + 0) *
          (fun _ : ℕ => (1 : ℚ)) i1 :=
  claim_C3_two_stage_amended (fun _ => 1) (fun _ => 1) (fun _ => 1) (fun _ => 0)
    (fun _ => 0) 1 1 8 0 (by norm_num) (by norm_num) (by norm_num)

/-- Claim C8 counterexample: with the lossy rounding map `ratFloor`
(round toward negative infinity, an idealized narrowing cast), storage
values `gamma = 3`, `x = 1` and `inv_std = 1/2`, the code's forward store
`gamma[i] * castV(c_invvar * curr)` (line 468) yields 0 while the claimed
single-final-cast value `castV(gamma * x * inv_std)` yields 1: the
forward output with gamma is NOT evaluated entirely in the accumulation
type with one final cast. -/
theorem claim_C8_counterexample :
    fwdValCast ratFloor 3 (1 / 2) 1 ≠ fwdValSpecCast ratFloor 3 (1 / 2) 1 := by
  norm_num [fwdValCast, fwdValSpecCast, ratFloor]

/-- Claim C8 (amended): `grad_input` is evaluated entirely in the
accumulation type and cast down exactly once at the final store — the
code's expression agrees with the claimed closed form for every rounding
map `castT` — while the forward RMS output with gamma equals
`gamma[i] * castV(c_invvar * x)` computed in storage precision: the
normalized value is cast to the storage type before the gamma
multiplication. -/
theorem claim_C8_cast_amended :
    (∀ (castT : ℚ → ℚ) (n2 : ℕ) (cl g ch cinv sl2 : ℚ),
      gradInputValCast castT n2 cl g ch cinv sl2 =
        gradInputValSpecCast castT n2 cl g ch cinv sl2) ∧
    (∀ (castV : ℚ → ℚ) (g cinv curr : ℚ),
      fwdValCast castV g cinv curr = castV (g * castV (cinv * curr))) := by
  constructor
  · intro castT n2 cl g ch cinv sl2
    unfold gradInputValCast gradInputValSpecCast
    congr 1
    ring
  · intro castV g cinv curr
    rfl

/-- Claim C9: if the descriptor's input or weight dtype is outside the
supported set, both public entry points fall through the dispatch default:
no kernel runs, no buffer is written, no error is signalled — the call
returns its state unchanged. -/
theorem claim_C9_dispatch_noop (rsq : ℚ → ℚ) (d : RMSNormDescriptor)
    (s : FwdState) (t : BwdState)
    (h : isSupported d.xType = false ∨ isSupported d.wType = false) :
    rms_forward_affine_mixed_dtypes rsq d s = s ∧ rms_backward_affine d t = t := by
  have hb : (isSupported d.xType && isSupported d.wType) = false := by
    rcases h with h | h <;> simp [h]
  constructor <;> simp [rms_forward_affine_mixed_dtypes, rms_backward_affine, hb]

theorem claim_C9_dispatch_noop_witness :
    rms_forward_affine_mixed_dtypes id
        ⟨1, 1, 1, ElementType.other 0, ElementType.F32, 1⟩
        ⟨fun _ => 0, fun _ => 0, fun _ => 0, fun _ => 0⟩ =
      ⟨fun _ => 0, fun _ => 0, fun _ => 0, fun _ => 0⟩ ∧
    rms_backward_affine ⟨1, 1, 1, ElementType.other 0, ElementType.F32, 1⟩
        ⟨fun _ => 0, fun _ => 0, fun _ => 0, fun _ => 0, fun _ => 0, fun _ => 0,
          fun _ => 0⟩ =
      ⟨fun _ => 0, fun _ => 0, fun _ => 0, fun _ => 0, fun _ => 0, fun _ => 0,
        fun _ => 0⟩ :=
  claim_C9_dispatch_noop id _ _ _ (Or.inl rfl)

/-- Claim C10: every kernel invocation reachable from the two public entry
points passes `rms_only = true`, so the full-layer-norm branches are
unreachable: the host wrappers are definitionally the `rms_only = true`
compositions of the kernels; the `mean` slots (NULL in the forward,
aliased to `invvar` in the backward) are never read — any two contents
give identical results — and the buffers passed in the `part_grad_beta` /
`grad_beta` roles are never written through those roles. -/
theorem claim_C10_rms_only_unreachable :
    (∀ (rsq : ℚ → ℚ) (o iv vals : ℕ → ℚ) (n1 n2 : ℕ) (eps : ℚ)
        (g : Option (ℕ → ℚ)),
      HostApplyRMSNorm rsq o iv vals n1 n2 eps g =
        cuApplyLayerNorm rsq vals n1 n2 eps g none true ⟨o, fun _ => 0, iv⟩) ∧
    (∀ (dout input : ℕ → ℚ) (n1 n2 P : ℕ) (m1 m2 invvar pgg pb1 pb2 : ℕ → ℚ),
      (cuComputePartGradGammaBeta dout input n1 n2 m1 invvar pgg pb1 P true).1 =
        (cuComputePartGradGammaBeta dout input n1 n2 m2 invvar pgg pb2 P true).1 ∧
      (cuComputePartGradGammaBeta dout input n1 n2 m1 invvar pgg pb1 P true).2 =
        pb1) ∧
    (∀ (pgg pb1 pb2 gg gb1 gb2 : ℕ → ℚ) (P n1 n2 : ℕ),
      (cuComputeGradGammaBeta pgg pb1 P n1 n2 gg gb1 true).1 =
        (cuComputeGradGammaBeta pgg pb2 P n1 n2 gg gb2 true).1 ∧
      (cuComputeGradGammaBeta pgg pb1 P n1 n2 gg gb1 true).2 = gb1) ∧
    (∀ (dout input : ℕ → ℚ) (n1 n2 : ℕ) (m1 m2 invvar gi : ℕ → ℚ)
        (g : Option (ℕ → ℚ)),
      cuComputeGradInput dout input n1 n2 m1 invvar g gi true =
        cuComputeGradInput dout input n1 n2 m2 invvar g gi true) ∧
    (∀ (dout invvar input : ℕ → ℚ) (n1 n2 P : ℕ) (g gi gg pgg : ℕ → ℚ),
      HostRMSNormGradient dout invvar input n1 n2 (some g) gi gg P pgg =
        (cuComputeGradInput dout input n1 n2 invvar invvar (some g) gi true,
         (cuComputeGradGammaBeta
            (cuComputePartGradGammaBeta dout input n1 n2 invvar invvar pgg pgg
              P true).1
            (cuComputePartGradGammaBeta dout input n1 n2 invvar invvar pgg pgg
              P true).1
            P n1 n2 gg gg true).1,
         (cuComputePartGradGammaBeta dout input n1 n2 invvar invvar pgg pgg
           P true).1)) := by
  refine ⟨?_, ?_, ?_, ?_, ?_⟩ <;> intros <;>
    first
      | exact ⟨rfl, rfl⟩
      | rfl

end RMSNorm
